import Mathlib

/-!
Shallow embedding of the Go-style board engine in `src/bot/board.py`
(class `Board` and its move/group/capture operations), together with
proofs of the specified properties.

Conventions of the embedding:
* Python's string cells (`"#"` for empty, a player's colour string for a
  stone) become the inductive `Cell`; movers are `Color` (black or white),
  matching the spec's data model {Empty, Black, White}.
* The mutable `size × size` grid becomes a total function
  `Nat → Nat → Cell` carried by `Board`; all accesses made by the code are
  bounds-guarded, so values outside `[0,size)²` are never read.
* `Board.get_group`'s worklist loop is modelled by a fuelled structural
  recursion; the fuel `8·M·N + 1` is an upper bound on the number of loop
  iterations (proved below via the measure `groupMeasure`), so the fuelled
  run agrees with the Python loop, which simply runs until the worklist
  is empty.
* Exceptions become `Except` results; `perform_move` returns the outcome
  together with the final grid state, so that the rollback behaviour of
  the Python code (snapshot / restore around the tentative placement) is
  visible in the model.
-/

/-- A mover's colour: the two stone colours of the spec's data model. -/
inductive Color where
  | black
  | white
deriving DecidableEq, Repr

/-- The opposite stone colour. -/
def Color.other : Color → Color
  | .black => .white
  | .white => .black

/-- A cell of the grid: `"#"` (empty) or a stone of one colour. -/
inductive Cell where
  | empty
  | stone (c : Color)
deriving DecidableEq, Repr

/-- A coordinate pair `(row, col)`. -/
abbrev Pos := Nat × Nat

/-- The board: the side length and the grid contents, as in `Board.__init__`
(`self.size`, `self.board`). The grid is a total function; only
coordinates below `size` are ever read by the operations. -/
structure Board where
  size : Nat
  grid : Nat → Nat → Cell

/-- Reading one cell, as `Board.__getitem__`. -/
def Board.get (b : Board) (i j : Nat) : Cell :=
  b.grid i j

/-- A fresh all-empty board of the given side, as `Board(size=n)` fills the
grid with `"#"`. -/
def Board.new (n : Nat) : Board :=
  ⟨n, fun _ _ => Cell.empty⟩

/-- Restoring a board from a given grid of rows, as `Board(board=rows)`
(the side is inferred from the row list). Cells outside the rows read as
empty; they are never consulted. -/
def Board.ofRows (rows : List (List Cell)) : Board :=
  ⟨rows.length, fun i j => (((rows.get? i).getD []).get? j).getD Cell.empty⟩

/-- Writing one cell of a grid (`self.board[x][y] = v`). -/
def setCell (g : Nat → Nat → Cell) (x y : Nat) (v : Cell) : Nat → Nat → Cell :=
  fun i j => if i = x ∧ j = y then v else g i j

/-- The bounds-guarded orthogonal neighbour candidates used by
`get_group`, `count_liberties` and the capture scan: `(x-1,y)` when
`x > 0`, `(x+1,y)` when `x < size-1`, `(y-1)`/`(y+1)` likewise. Listed
so that the head is the candidate Python's stack pops first. -/
def stepCands (size : Nat) (p : Pos) : List Pos :=
  (if p.2 + 1 < size then [(p.1, p.2 + 1)] else []) ++
  (if 0 < p.2 then [(p.1, p.2 - 1)] else []) ++
  (if p.1 + 1 < size then [(p.1 + 1, p.2)] else []) ++
  (if 0 < p.1 then [(p.1 - 1, p.2)] else [])

/-- One worklist step of `Board.get_group`: the popped node's neighbour
candidates that hold `c` and are not yet visited, pushed onto the stack. -/
def groupPush (b : Board) (c : Cell) (vis : Finset Pos) (p : Pos) : List Pos :=
  (stepCands b.size p).filter (fun q => b.grid q.1 q.2 = c ∧ q ∉ vis)

/-- The worklist loop of `Board.get_group`: pop a node, add it to
`visited`, push its unvisited same-colour neighbours. Fuel bounds the
number of iterations; `get_group` supplies enough fuel for the loop to
run to completion (lemma `get_groupAux_complete` area below). -/
def get_groupAux (b : Board) (c : Cell) : Nat → Finset Pos → List Pos → Finset Pos
  | 0, vis, _ => vis
  | _ + 1, vis, [] => vis
  | fuel + 1, vis, p :: rest =>
      let vis' := insert p vis
      get_groupAux b c fuel vis' (groupPush b c vis' p ++ rest)

/-- The method `Board.get_group(x, y, color)`: flood fill from `(x, y)` through cells
holding `color`. The fuel `8·M·N + 1` dominates the loop measure, where
`M × N` bounds every coordinate the worklist can ever hold. -/
def get_group (b : Board) (x y : Nat) (c : Cell) : Finset Pos :=
  get_groupAux b c (8 * (max (x + 1) b.size) * (max (y + 1) b.size) + 1) ∅ [(x, y)]

/-- The set of liberties accumulated by `Board.count_liberties`: distinct
empty neighbour candidates of the group's members. -/
def libertiesOf (b : Board) (group : Finset Pos) : Finset Pos :=
  group.biUnion (fun p => ((stepCands b.size p).filter (fun q => b.grid q.1 q.2 = Cell.empty)).toFinset)

/-- The method `Board.count_liberties(group)`: the number of distinct liberties. -/
def count_liberties (b : Board) (group : Finset Pos) : Nat :=
  (libertiesOf b group).card

/-- The method `Board.check_inmediate_capture(x, y, color)`: true exactly when the
group of the placed stone has zero liberties (the Python method raises
`InmediateCapture` in that case). -/
def check_inmediate_capture (b : Board) (x y : Nat) (c : Color) : Bool :=
  count_liberties b (get_group b x y (Cell.stone c)) = 0

/-- The row-major scan order of `Board.capture`'s two nested loops. -/
def rowMajor (size : Nat) : List Pos :=
  (List.range size).flatMap (fun i => (List.range size).map (fun j => (i, j)))

/-- One iteration of `Board.capture`'s scan: skip cells that are empty, of
the mover's colour, or already visited; otherwise record the seed as
visited, compute its group on the current grid, and clear the group when
it has no liberties. -/
def captureStep (size : Nat) (color : Color) (st : (Nat → Nat → Cell) × Finset Pos) (p : Pos) :
    (Nat → Nat → Cell) × Finset Pos :=
  let g := st.1
  let vis := st.2
  let cell := g p.1 p.2
  if cell ≠ Cell.empty ∧ cell ≠ Cell.stone color ∧ p ∉ vis then
    let vis' := insert p vis
    let grp := get_group ⟨size, g⟩ p.1 p.2 cell
    if count_liberties ⟨size, g⟩ grp = 0 then
      (fun i j => if (i, j) ∈ grp then Cell.empty else g i j, vis')
    else (g, vis')
  else (g, vis)

/-- The method `Board.capture(color)`: scan the grid in row-major order and remove
every zero-liberty group of a colour other than `color`. -/
def capture (b : Board) (color : Color) : Board :=
  ⟨b.size, ((rowMajor b.size).foldl (captureStep b.size color) (b.grid, ∅)).1⟩

/-- The moves accepted by `Board.perform_move`: a placement (`Play` with
coordinates) or a pass (`Skip`). Coordinates are integers, as in Python. -/
inductive Play where
  | place (row col : Int)
  | skip
deriving DecidableEq, Repr

/-- The error taxonomy of `board.py` (each exception carries the offending
coordinates). -/
inductive InvalidMove where
  | cellDoesNotExist (x y : Int)
  | cellNotEmpty (x y : Int)
  | inmediateCapture (x y : Int)
  | prohibitionOfRepetition (x y : Int)
deriving DecidableEq, Repr

instance {ε α : Type} [DecidableEq ε] [DecidableEq α] : DecidableEq (Except ε α) :=
  fun x y =>
    match x, y with
    | .ok a, .ok b => if h : a = b then isTrue (by rw [h]) else isFalse (by simp [h])
    | .ok _, .error _ => isFalse (by simp)
    | .error _, .ok _ => isFalse (by simp)
    | .error e1, .error e2 =>
        if h : e1 = e2 then isTrue (by rw [h]) else isFalse (by simp [h])

/-- Grid equality as Python's `self.board == previous_board`: the two
`size × size` nested lists agree cell for cell. -/
def gridEq (size : Nat) (g1 g2 : Nat → Nat → Cell) : Prop :=
  ∀ i < size, ∀ j < size, g1 i j = g2 i j

instance (size : Nat) (g1 g2 : Nat → Nat → Cell) : Decidable (gridEq size g1 g2) := by
  unfold gridEq; infer_instance

/-- The method `Board.perform_move(play, color)`: the full legality pipeline. The
result pairs the outcome (`ok` for a committed move, `error` for a raised
exception) with the final state of the board, so the snapshot/restore
behaviour of the Python code is part of the model: `previous` is the deep
copy taken after the bounds and occupancy checks, and every rejection
after the tentative placement rebuilds the board from it. -/
def perform_move (b : Board) (play : Play) (color : Color) :
    Except InvalidMove Unit × Board :=
  match play with
  | .skip => (Except.ok (), b)
  | .place x y =>
      if x < 0 ∨ x ≥ (b.size : Int) ∨ y < 0 ∨ y ≥ (b.size : Int) then
        (Except.error (.cellDoesNotExist x y), b)
      else if b.grid x.toNat y.toNat ≠ Cell.empty then
        (Except.error (.cellNotEmpty x y), b)
      else
        let previous := b.grid
        let b1 : Board := ⟨b.size, setCell b.grid x.toNat y.toNat (Cell.stone color)⟩
        if check_inmediate_capture b1 x.toNat y.toNat color then
          (Except.error (.inmediateCapture x y), ⟨b.size, previous⟩)
        else
          let b2 := capture b1 color
          if gridEq b.size b2.grid previous then
            (Except.error (.prohibitionOfRepetition x y), ⟨b.size, previous⟩)
          else
            (Except.ok (), b2)

/-- A Python `NameError`, carrying the name that is not defined. -/
structure PyNameError where
  name : String
deriving DecidableEq, Repr

/-- The method `Board.__setitem__(key, value)`: its body is
`self.board[item[0]][item[1]] = value`, but `item` is not a parameter of
the method (the parameter is `key`) and is bound nowhere, so evaluating
the subscript expression raises `NameError: name 'item' is not defined`
before any assignment happens. The model returns that error together
with the unchanged board. -/
def setitem (b : Board) (_key : Int × Int) (_value : Cell) :
    Except PyNameError Unit × Board :=
  (Except.error ⟨"item"⟩, b)

/-- One traversal step of the flood fill, exactly as guarded in
`Board.get_group`: `q` is one of the bounds-guarded neighbour candidates
of `p` and holds colour `c`. -/
def GStep (b : Board) (c : Cell) (p q : Pos) : Prop :=
  q ∈ stepCands b.size p ∧ b.grid q.1 q.2 = c

/-- Orthogonal 4-adjacency of two coordinates, as the spec words it. -/
def Adjacent (p q : Pos) : Prop :=
  (p.1 = q.1 ∧ (q.2 = p.2 + 1 ∨ p.2 = q.2 + 1)) ∨
  (p.2 = q.2 ∧ (q.1 = p.1 + 1 ∨ p.1 = q.1 + 1))

/-- The spec's notion of one reachability step: an orthogonally adjacent
in-bounds cell holding colour `c`. -/
def SpecStep (b : Board) (c : Cell) (p q : Pos) : Prop :=
  Adjacent p q ∧ q.1 < b.size ∧ q.2 < b.size ∧ b.grid q.1 q.2 = c

/-- A coordinate holding a stone of the colour opposing `color` whose
group (on `b`) has zero liberties: exactly the cells `Board.capture`
is specified to clear. -/
def dead (b : Board) (color : Color) (q : Pos) : Prop :=
  b.grid q.1 q.2 = Cell.stone color.other ∧
    count_liberties b (get_group b q.1 q.2 (Cell.stone color.other)) = 0

instance (b : Board) (color : Color) (q : Pos) : Decidable (dead b color q) := by
  unfold dead; infer_instance

/-- Bonus term of the loop measure: 4 unless the worklist's top is an
unvisited node (a node about to enlarge the visited set). -/
def indTop (vis : Finset Pos) : List Pos → Nat
  | [] => 4
  | p :: _ => if p ∈ vis then 4 else 0

/-- The loop measure of `get_group`'s worklist: it strictly decreases at
every iteration (lemma `groupMeasure_decreases`), over any coordinate
universe `U` that contains the worklist and is closed under
`stepCands`. -/
def groupMeasure (U vis : Finset Pos) (tv : List Pos) : Nat :=
  8 * (U \ vis).card + tv.length + indTop vis tv

/-- The invariant of `Board.capture`'s scan, relating the current grid
`g` and visited set `vis` to the original board `b`, where `P` is the
list of coordinates already scanned: (1) cells change only from a dead
opposing stone to empty; (2) a dead cell is empty exactly when some
member of its (original) group has been scanned; (3) the visited set
contains only scanned coordinates. -/
def capInv (b : Board) (color : Color) (g : Nat → Nat → Cell) (vis : Finset Pos)
    (P : List Pos) : Prop :=
  (∀ i j, g i j = b.grid i j ∨
     (i < b.size ∧ j < b.size ∧ dead b color (i, j) ∧ g i j = Cell.empty)) ∧
  (∀ q : Pos, q.1 < b.size → q.2 < b.size → dead b color q →
     (g q.1 q.2 = Cell.empty ↔
       ∃ r ∈ get_group b q.1 q.2 (Cell.stone color.other), r ∈ P)) ∧
  (∀ v ∈ vis, v ∈ P)

/-- Example board (2×2): `[[#,W],[W,B]]`. Black playing the corner (0,0)
is suicidal before the sweep, although the sweep would capture both
white stones. -/
def bCorner : Board :=
  Board.ofRows [[Cell.empty, Cell.stone .white], [Cell.stone .white, Cell.stone .black]]

/-- The tentative grid after black plays (0,0) on `bCorner`. -/
def bCornerPlaced : Board :=
  ⟨2, setCell bCorner.grid 0 0 (Cell.stone .black)⟩

/-- Example board (3×3): a single white stone at (1,1) surrounded by
black stones on all four sides. -/
def bCross : Board :=
  Board.ofRows
    [[Cell.empty, Cell.stone .black, Cell.empty],
     [Cell.stone .black, Cell.stone .white, Cell.stone .black],
     [Cell.empty, Cell.stone .black, Cell.empty]]

/-- Example board (3×3): a black group {(0,0),(0,1),(1,1)} and a separate
black stone at (2,0). -/
def bGroups : Board :=
  Board.ofRows
    [[Cell.stone .black, Cell.stone .black, Cell.empty],
     [Cell.empty, Cell.stone .black, Cell.empty],
     [Cell.stone .black, Cell.empty, Cell.empty]]

/-- Example board: the all-empty 2×2 board. -/
def bEmpty2 : Board := Board.new 2

section GroupLemmas

variable {b : Board} {c : Cell}

lemma mem_stepCands {size : Nat} {p q : Pos} :
    q ∈ stepCands size p ↔
      ((q = (p.1, p.2 + 1) ∧ p.2 + 1 < size) ∨ (q = (p.1, p.2 - 1) ∧ 0 < p.2) ∨
       (q = (p.1 + 1, p.2) ∧ p.1 + 1 < size) ∨ (q = (p.1 - 1, p.2) ∧ 0 < p.1)) := by
  unfold stepCands
  by_cases h1 : p.2 + 1 < size <;> by_cases h2 : 0 < p.2 <;>
    by_cases h3 : p.1 + 1 < size <;> by_cases h4 : 0 < p.1 <;>
    simp [h1, h2, h3, h4] <;> tauto

lemma stepCands_length_le {size : Nat} {p : Pos} : (stepCands size p).length ≤ 4 := by
  unfold stepCands
  by_cases h1 : p.2 + 1 < size <;> by_cases h2 : 0 < p.2 <;>
    by_cases h3 : p.1 + 1 < size <;> by_cases h4 : 0 < p.1 <;>
    simp [h1, h2, h3, h4]

lemma stepCands_inBounds {size : Nat} {p q : Pos} (hp1 : p.1 < size) (hp2 : p.2 < size)
    (hq : q ∈ stepCands size p) : q.1 < size ∧ q.2 < size := by
  obtain ⟨px, py⟩ := p
  obtain ⟨qx, qy⟩ := q
  rw [mem_stepCands] at hq
  simp only [Prod.mk.injEq] at hq
  simp only [] at hp1 hp2 ⊢
  rcases hq with ⟨⟨e1, e2⟩, h⟩ | ⟨⟨e1, e2⟩, h⟩ | ⟨⟨e1, e2⟩, h⟩ | ⟨⟨e1, e2⟩, h⟩ <;> omega

lemma stepCands_symm {size : Nat} {p q : Pos} (hp1 : p.1 < size) (hp2 : p.2 < size)
    (hq : q ∈ stepCands size p) : p ∈ stepCands size q := by
  obtain ⟨px, py⟩ := p
  obtain ⟨qx, qy⟩ := q
  rw [mem_stepCands] at hq ⊢
  simp only [Prod.mk.injEq] at hq ⊢
  simp only [] at hp1 hp2
  rcases hq with ⟨⟨e1, e2⟩, h⟩ | ⟨⟨e1, e2⟩, h⟩ | ⟨⟨e1, e2⟩, h⟩ | ⟨⟨e1, e2⟩, h⟩ <;> omega

lemma mem_stepCands_iff_adjacent {size : Nat} {p q : Pos} (hp1 : p.1 < size) (hp2 : p.2 < size) :
    q ∈ stepCands size p ↔ (Adjacent p q ∧ q.1 < size ∧ q.2 < size) := by
  obtain ⟨px, py⟩ := p
  obtain ⟨qx, qy⟩ := q
  rw [mem_stepCands]
  unfold Adjacent
  simp only [Prod.mk.injEq]
  constructor
  · rintro (⟨⟨rfl, rfl⟩, h⟩ | ⟨⟨rfl, rfl⟩, h⟩ | ⟨⟨rfl, rfl⟩, h⟩ | ⟨⟨rfl, rfl⟩, h⟩) <;>
      refine ⟨?_, by omega, by omega⟩ <;> simp <;> omega
  · rintro ⟨⟨h1, h2⟩ | ⟨h1, h2⟩, hq1, hq2⟩
    · rcases h2 with h2 | h2
      · exact Or.inl ⟨⟨by omega, by omega⟩, by omega⟩
      · exact Or.inr (Or.inl ⟨⟨by omega, by omega⟩, by omega⟩)
    · rcases h2 with h2 | h2
      · exact Or.inr (Or.inr (Or.inl ⟨⟨by omega, by omega⟩, by omega⟩))
      · exact Or.inr (Or.inr (Or.inr ⟨⟨by omega, by omega⟩, by omega⟩))

lemma mem_groupPush {vis : Finset Pos} {p q : Pos} :
    q ∈ groupPush b c vis p ↔ (q ∈ stepCands b.size p ∧ b.grid q.1 q.2 = c ∧ q ∉ vis) := by
  unfold groupPush
  simp [List.mem_filter]

lemma groupPush_length_le {vis : Finset Pos} {p : Pos} : (groupPush b c vis p).length ≤ 4 :=
  le_trans (List.length_filter_le _ _) stepCands_length_le

lemma GStep_iff_specStep {p q : Pos} (hp1 : p.1 < b.size) (hp2 : p.2 < b.size) :
    GStep b c p q ↔ SpecStep b c p q := by
  unfold GStep SpecStep
  rw [mem_stepCands_iff_adjacent hp1 hp2]
  tauto

lemma GStep_inBounds {p q : Pos} (hp1 : p.1 < b.size) (hp2 : p.2 < b.size)
    (h : GStep b c p q) : q.1 < b.size ∧ q.2 < b.size :=
  stepCands_inBounds hp1 hp2 h.1

/-- The visited set only grows along the worklist loop. -/
lemma get_groupAux_mono : ∀ (fuel : Nat) (vis : Finset Pos) (tv : List Pos),
    vis ⊆ get_groupAux b c fuel vis tv := by
  intro fuel
  induction fuel with
  | zero => intro vis tv; exact Finset.Subset.refl _
  | succ n ih =>
      intro vis tv
      cases tv with
      | nil => exact Finset.Subset.refl _
      | cons p rest =>
          exact le_trans (Finset.subset_insert p vis) (ih _ _)

/-- Soundness of the worklist loop: any predicate closed under `GStep`
that holds on the initial visited set and worklist holds on the result. -/
lemma get_groupAux_sound {R : Pos → Prop}
    (hR : ∀ p q, R p → GStep b c p q → R q) :
    ∀ (fuel : Nat) (vis : Finset Pos) (tv : List Pos),
      (∀ p ∈ vis, R p) → (∀ p ∈ tv, R p) →
      ∀ q ∈ get_groupAux b c fuel vis tv, R q := by
  intro fuel
  induction fuel with
  | zero => intro vis tv hv _ q hq; exact hv q hq
  | succ n ih =>
      intro vis tv hv ht q hq
      cases tv with
      | nil => exact hv q hq
      | cons p rest =>
          refine ih _ _ ?_ ?_ q hq
          · intro a ha
            rcases Finset.mem_insert.1 ha with rfl | ha
            · exact ht a (List.mem_cons_self _ _)
            · exact hv a ha
          · intro a ha
            rcases List.mem_append.1 ha with ha | ha
            · obtain ⟨hstep, hcol, _⟩ := mem_groupPush.1 ha
              exact hR p a (ht p (List.mem_cons_self _ _)) ⟨hstep, hcol⟩
            · exact ht a (List.mem_cons ..|>.2 (Or.inr ha))

end GroupLemmas

section GroupTermination

variable {b : Board} {c : Cell}

lemma indTop_le {vis : Finset Pos} {tv : List Pos} : indTop vis tv ≤ 4 := by
  cases tv with
  | nil => simp [indTop]
  | cons p l => simp only [indTop]; split <;> omega

lemma groupMeasure_pos (U vis : Finset Pos) (tv : List Pos) : 1 ≤ groupMeasure U vis tv := by
  cases tv with
  | nil => simp [groupMeasure, indTop]
  | cons p l => simp [groupMeasure]; omega

/-- Each worklist iteration strictly decreases the loop measure, provided
the popped node lies in the universe `U`. -/
lemma groupMeasure_decreases (U vis : Finset Pos) (p : Pos) (rest : List Pos)
    (hpU : p ∈ U) :
    groupMeasure U (insert p vis) (groupPush b c (insert p vis) p ++ rest) <
      groupMeasure U vis (p :: rest) := by
  by_cases hp : p ∈ vis
  · have hins : insert p vis = vis := Finset.insert_eq_self.2 hp
    rw [hins]
    have h1 : indTop vis (p :: rest) = 4 := by simp [indTop, hp]
    cases hP : groupPush b c vis p with
    | nil =>
        have h2 : indTop vis ([] ++ rest) ≤ 4 := indTop_le
        unfold groupMeasure
        rw [h1]
        simp only [List.nil_append] at h2 ⊢
        simp only [List.length_cons]
        omega
    | cons q P' =>
        have hq : q ∉ vis := by
          have hmem : q ∈ groupPush b c vis p := by rw [hP]; exact List.mem_cons_self _ _
          exact (mem_groupPush.1 hmem).2.2
        have h2 : indTop vis ((q :: P') ++ rest) = 0 := by simp [indTop, hq]
        have hlen : (groupPush b c vis p).length ≤ 4 := groupPush_length_le
        rw [hP] at hlen
        unfold groupMeasure
        rw [h1, h2]
        simp only [List.length_append, List.length_cons] at hlen ⊢
        omega
  · have hmem : p ∈ U \ vis := Finset.mem_sdiff.2 ⟨hpU, hp⟩
    have hcard : (U \ insert p vis).card + 1 = (U \ vis).card := by
      rw [Finset.sdiff_insert, Finset.card_erase_of_mem hmem]
      have hpos : 0 < (U \ vis).card := Finset.card_pos.2 ⟨p, hmem⟩
      omega
    have h1 : indTop vis (p :: rest) = 0 := by simp [indTop, hp]
    have h2 : indTop (insert p vis) (groupPush b c (insert p vis) p ++ rest) ≤ 4 := indTop_le
    have hlen : (groupPush b c (insert p vis) p).length ≤ 4 := groupPush_length_le
    unfold groupMeasure
    rw [h1]
    simp only [List.length_append, List.length_cons] at h2 ⊢
    omega

/-- Completion of the worklist loop, given fuel at least the measure over
a `stepCands`-closed universe `U` containing the worklist: everything on
the worklist ends up in the result, and the result is closed under
`GStep` provided the visited set was (relative to the worklist). -/
lemma get_groupAux_complete {U : Finset Pos}
    (hU : ∀ p ∈ U, ∀ q ∈ stepCands b.size p, q ∈ U) :
    ∀ (fuel : Nat) (vis : Finset Pos) (tv : List Pos),
      (∀ p ∈ tv, p ∈ U) →
      groupMeasure U vis tv ≤ fuel →
      (∀ a ∈ vis, ∀ q, GStep b c a q → q ∈ vis ∨ q ∈ tv) →
      (∀ s ∈ tv, s ∈ get_groupAux b c fuel vis tv) ∧
      (∀ a ∈ get_groupAux b c fuel vis tv, ∀ q, GStep b c a q →
        q ∈ get_groupAux b c fuel vis tv) := by
  intro fuel
  induction fuel with
  | zero =>
      intro vis tv htv hfu hcl
      have := groupMeasure_pos U vis tv
      omega
  | succ n ih =>
      intro vis tv htv hfu hcl
      cases tv with
      | nil =>
          constructor
          · intro s hs; cases hs
          · intro a ha q hstep
            rcases hcl a ha q hstep with h | h
            · exact h
            · cases h
      | cons p rest =>
          have hpU : p ∈ U := htv p (List.mem_cons_self _ _)
          have heq : get_groupAux b c (n + 1) vis (p :: rest) =
              get_groupAux b c n (insert p vis) (groupPush b c (insert p vis) p ++ rest) := rfl
          have htv' : ∀ q ∈ groupPush b c (insert p vis) p ++ rest, q ∈ U := by
            intro q hq
            rcases List.mem_append.1 hq with hq | hq
            · exact hU p hpU q (mem_groupPush.1 hq).1
            · exact htv q (List.mem_cons ..|>.2 (Or.inr hq))
          have hfu' : groupMeasure U (insert p vis) (groupPush b c (insert p vis) p ++ rest) ≤ n := by
            have := groupMeasure_decreases (b := b) (c := c) U vis p rest hpU
            omega
          have hcl' : ∀ a ∈ insert p vis, ∀ q, GStep b c a q →
              q ∈ insert p vis ∨ q ∈ groupPush b c (insert p vis) p ++ rest := by
            intro a ha q hstep
            rcases Finset.mem_insert.1 ha with rfl | ha
            · by_cases hqv : q ∈ insert a vis
              · exact Or.inl hqv
              · refine Or.inr (List.mem_append.2 (Or.inl ?_))
                exact mem_groupPush.2 ⟨hstep.1, hstep.2, hqv⟩
            · rcases hcl a ha q hstep with h | h
              · exact Or.inl (Finset.mem_insert_of_mem h)
              · rcases List.mem_cons.1 h with rfl | h
                · exact Or.inl (Finset.mem_insert_self _ _)
                · exact Or.inr (List.mem_append.2 (Or.inr h))
          obtain ⟨hmem, hclosed⟩ := ih (insert p vis) (groupPush b c (insert p vis) p ++ rest)
            htv' hfu' hcl'
          rw [heq]
          refine ⟨?_, hclosed⟩
          intro s hs
          rcases List.mem_cons.1 hs with rfl | hs
          · exact get_groupAux_mono _ _ _ (Finset.mem_insert_self _ _)
          · exact hmem s (List.mem_append.2 (Or.inr hs))

end GroupTermination

section GroupCharacterization

variable {b : Board} {c : Cell}

/-- The characterization of `Board.get_group`: for an in-bounds start, the
returned set is exactly the set of coordinates reachable from the start
through the guarded traversal steps. -/
lemma mem_get_group_iff {x y : Nat} (hx : x < b.size) (hy : y < b.size) (q : Pos) :
    q ∈ get_group b x y c ↔ Relation.ReflTransGen (GStep b c) (x, y) q := by
  have hfuel : 8 * (max (x + 1) b.size) * (max (y + 1) b.size) + 1 =
      8 * b.size * b.size + 1 := by
    rw [max_eq_right (by omega), max_eq_right (by omega)]
  have hgg : get_group b x y c =
      get_groupAux b c (8 * b.size * b.size + 1) ∅ [(x, y)] := by
    unfold get_group
    rw [hfuel]
  set U : Finset Pos := Finset.range b.size ×ˢ Finset.range b.size with hUdef
  have hUmem : ∀ p : Pos, p ∈ U ↔ (p.1 < b.size ∧ p.2 < b.size) := by
    intro p
    simp [hUdef, Finset.mem_product]
  have hUclosed : ∀ p ∈ U, ∀ r ∈ stepCands b.size p, r ∈ U := by
    intro p hp r hr
    have hpb := (hUmem p).1 hp
    exact (hUmem r).2 (stepCands_inBounds hpb.1 hpb.2 hr)
  have hUcard : U.card = b.size * b.size := by
    simp [hUdef]
  have hmu : groupMeasure U ∅ [(x, y)] ≤ 8 * b.size * b.size + 1 := by
    have hval : groupMeasure U ∅ [(x, y)] = 8 * (b.size * b.size) + 1 := by
      unfold groupMeasure indTop
      simp [hUcard]
    rw [hval, ← mul_assoc]
  obtain ⟨hmem, hclosed⟩ := get_groupAux_complete (b := b) (c := c) hUclosed
    (8 * b.size * b.size + 1) ∅ [(x, y)]
    (by
      intro p hp
      rcases List.mem_cons.1 hp with rfl | hp
      · exact (hUmem _).2 ⟨hx, hy⟩
      · cases hp)
    hmu
    (by intro a ha; cases ha)
  constructor
  · rw [hgg]
    intro hq
    refine get_groupAux_sound (R := fun r => Relation.ReflTransGen (GStep b c) (x, y) r)
      (fun p r hp hstep => hp.tail hstep) _ ∅ [(x, y)] (by intro a ha; cases ha) ?_ q hq
    intro a ha
    rcases List.mem_cons.1 ha with rfl | ha
    · exact Relation.ReflTransGen.refl
    · cases ha
  · intro hreach
    rw [hgg]
    induction hreach with
    | refl => exact hmem (x, y) (List.mem_cons_self _ _)
    | tail _ hstep ihq => exact hclosed _ ihq _ hstep

lemma reach_inBounds {x y : Nat} {q : Pos} (hx : x < b.size) (hy : y < b.size)
    (h : Relation.ReflTransGen (GStep b c) (x, y) q) : q.1 < b.size ∧ q.2 < b.size := by
  induction h with
  | refl => exact ⟨hx, hy⟩
  | tail _ hstep ih => exact stepCands_inBounds ih.1 ih.2 hstep.1

lemma reach_color {s q : Pos} (h : Relation.ReflTransGen (GStep b c) s q) :
    q = s ∨ b.grid q.1 q.2 = c := by
  induction h with
  | refl => exact Or.inl rfl
  | tail _ hstep _ => exact Or.inr hstep.2

lemma get_group_self_mem {x y : Nat} (hx : x < b.size) (hy : y < b.size) :
    (x, y) ∈ get_group b x y c :=
  (mem_get_group_iff hx hy _).2 Relation.ReflTransGen.refl

lemma get_group_mem_inBounds {x y : Nat} {q : Pos} (hx : x < b.size) (hy : y < b.size)
    (hq : q ∈ get_group b x y c) : q.1 < b.size ∧ q.2 < b.size :=
  reach_inBounds hx hy ((mem_get_group_iff hx hy _).1 hq)

lemma get_group_self_mem_pos {p : Pos} (hp1 : p.1 < b.size) (hp2 : p.2 < b.size) :
    p ∈ get_group b p.1 p.2 c := by
  simpa using get_group_self_mem (b := b) (c := c) hp1 hp2

lemma get_group_mem_color {x y : Nat} {q : Pos} (hx : x < b.size) (hy : y < b.size)
    (hcol : b.grid x y = c) (hq : q ∈ get_group b x y c) : b.grid q.1 q.2 = c := by
  rcases reach_color ((mem_get_group_iff hx hy _).1 hq) with rfl | h
  · exact hcol
  · exact h

lemma reach_symm {x y : Nat} {q : Pos} (hx : x < b.size) (hy : y < b.size)
    (hcol : b.grid x y = c)
    (h : Relation.ReflTransGen (GStep b c) (x, y) q) :
    Relation.ReflTransGen (GStep b c) q (x, y) := by
  induction h with
  | refl => exact Relation.ReflTransGen.refl
  | @tail p q' hr hstep ih =>
      have hpb := reach_inBounds hx hy hr
      have hpcol : b.grid p.1 p.2 = c := by
        rcases reach_color hr with rfl | h
        · exact hcol
        · exact h
      exact Relation.ReflTransGen.head ⟨stepCands_symm hpb.1 hpb.2 hstep.1, hpcol⟩ ih

/-- Start independence: the group of any member of a group is that same
group (for an in-bounds start holding the colour). -/
lemma get_group_eq_of_mem {x y : Nat} {q : Pos} (hx : x < b.size) (hy : y < b.size)
    (hcol : b.grid x y = c) (hq : q ∈ get_group b x y c) :
    get_group b q.1 q.2 c = get_group b x y c := by
  have hreach := (mem_get_group_iff hx hy _).1 hq
  have hqb := reach_inBounds hx hy hreach
  have hback := reach_symm hx hy hcol hreach
  ext r
  rw [mem_get_group_iff hqb.1 hqb.2, mem_get_group_iff hx hy]
  constructor
  · intro h
    exact Relation.ReflTransGen.trans hreach h
  · intro h
    exact Relation.ReflTransGen.trans hback h

end GroupCharacterization

section LibertyLemmas

variable {b : Board} {c : Cell}

lemma mem_libertiesOf {grp : Finset Pos} {r : Pos} :
    r ∈ libertiesOf b grp ↔
      ∃ p ∈ grp, r ∈ stepCands b.size p ∧ b.grid r.1 r.2 = Cell.empty := by
  unfold libertiesOf
  simp [Finset.mem_biUnion, List.mem_filter, List.mem_toFinset]

lemma count_liberties_eq_zero {grp : Finset Pos} :
    count_liberties b grp = 0 ↔
      ∀ p ∈ grp, ∀ r ∈ stepCands b.size p, b.grid r.1 r.2 ≠ Cell.empty := by
  unfold count_liberties
  rw [Finset.card_eq_zero, Finset.eq_empty_iff_forall_not_mem]
  constructor
  · intro h p hp r hr he
    exact h r (mem_libertiesOf.2 ⟨p, hp, hr, he⟩)
  · intro h r hr
    obtain ⟨p, hp, hc, he⟩ := mem_libertiesOf.1 hr
    exact h p hp r hc he

lemma cell_eq_opp_of_ne {cell : Cell} {color : Color}
    (h1 : cell ≠ Cell.empty) (h2 : cell ≠ Cell.stone color) :
    cell = Cell.stone color.other := by
  cases cell with
  | empty => exact absurd rfl h1
  | stone c' => cases c' <;> cases color <;> simp_all [Color.other]

lemma stone_other_ne_self {color : Color} : Cell.stone color.other ≠ Cell.stone color := by
  cases color <;> simp [Color.other]

lemma stone_other_ne_empty {color : Color} : Cell.stone color.other ≠ Cell.empty := by
  simp

/-- Replacing the grid by one that agrees on the colour `c` (in the sense
that `c`-cells of the new grid were `c`-cells of `b`, and all members of
the group keep colour `c`) leaves the group unchanged. -/
lemma get_group_stable {g : Nat → Nat → Cell} {x y : Nat} (hx : x < b.size) (hy : y < b.size)
    (h1 : ∀ i j, g i j = c → b.grid i j = c)
    (h2 : ∀ r ∈ get_group b x y c, g r.1 r.2 = c) :
    get_group ⟨b.size, g⟩ x y c = get_group b x y c := by
  ext r
  rw [mem_get_group_iff (b := ⟨b.size, g⟩) hx hy, mem_get_group_iff hx hy]
  constructor
  · intro h
    exact Relation.ReflTransGen.mono (fun p q hpq => ⟨hpq.1, h1 _ _ hpq.2⟩) h
  · intro h
    induction h with
    | refl => exact Relation.ReflTransGen.refl
    | @tail p q hr hstep ih =>
        have hq : q ∈ get_group b x y c := (mem_get_group_iff hx hy _).2 (hr.tail hstep)
        exact ih.tail ⟨hstep.1, h2 q hq⟩

lemma libertiesOf_mono_empty {g : Nat → Nat → Cell} {grp : Finset Pos}
    (h : ∀ i j, b.grid i j = Cell.empty → g i j = Cell.empty) :
    libertiesOf b grp ⊆ libertiesOf ⟨b.size, g⟩ grp := by
  intro r hr
  obtain ⟨p, hp, hc, he⟩ := mem_libertiesOf.1 hr
  exact mem_libertiesOf.2 ⟨p, hp, hc, h _ _ he⟩

lemma libertiesOf_congr {g : Nat → Nat → Cell} {grp : Finset Pos}
    (h : ∀ p ∈ grp, ∀ r ∈ stepCands b.size p,
      (g r.1 r.2 = Cell.empty ↔ b.grid r.1 r.2 = Cell.empty)) :
    libertiesOf ⟨b.size, g⟩ grp = libertiesOf b grp := by
  ext r
  rw [mem_libertiesOf, mem_libertiesOf]
  constructor
  · rintro ⟨p, hp, hc, he⟩
    exact ⟨p, hp, hc, (h p hp r hc).1 he⟩
  · rintro ⟨p, hp, hc, he⟩
    exact ⟨p, hp, hc, (h p hp r hc).2 he⟩

end LibertyLemmas

section DeadLemmas

variable {b : Board} {color : Color}

lemma dead_of_mem_group {p q : Pos} (hp1 : p.1 < b.size) (hp2 : p.2 < b.size)
    (hd : dead b color p)
    (hq : q ∈ get_group b p.1 p.2 (Cell.stone color.other)) : dead b color q := by
  have hcol := get_group_mem_color hp1 hp2 hd.1 hq
  have heq := get_group_eq_of_mem hp1 hp2 hd.1 hq
  exact ⟨hcol, by rw [heq]; exact hd.2⟩

lemma not_dead_of_mem_group {p q : Pos} (hp1 : p.1 < b.size) (hp2 : p.2 < b.size)
    (hopp : b.grid p.1 p.2 = Cell.stone color.other) (hnd : ¬ dead b color p)
    (hq : q ∈ get_group b p.1 p.2 (Cell.stone color.other)) : ¬ dead b color q := by
  intro hdq
  have heq := get_group_eq_of_mem hp1 hp2 hopp hq
  exact hnd ⟨hopp, by rw [← heq]; exact hdq.2⟩

lemma get_group_eq_of_inter {c : Cell} {p q r : Pos}
    (hp1 : p.1 < b.size) (hp2 : p.2 < b.size) (hq1 : q.1 < b.size) (hq2 : q.2 < b.size)
    (hcolp : b.grid p.1 p.2 = c) (hcolq : b.grid q.1 q.2 = c)
    (hrp : r ∈ get_group b p.1 p.2 c) (hrq : r ∈ get_group b q.1 q.2 c) :
    get_group b q.1 q.2 c = get_group b p.1 p.2 c := by
  rw [← get_group_eq_of_mem hp1 hp2 hcolp hrp, ← get_group_eq_of_mem hq1 hq2 hcolq hrq]

end DeadLemmas

section CaptureLemmas

variable {b : Board} {color : Color}

lemma captureStep_eq_skip {size : Nat} {g : Nat → Nat → Cell} {vis : Finset Pos} {p : Pos}
    (h : ¬(g p.1 p.2 ≠ Cell.empty ∧ g p.1 p.2 ≠ Cell.stone color ∧ p ∉ vis)) :
    captureStep size color (g, vis) p = (g, vis) := by
  simp only [captureStep]
  rw [if_neg h]

lemma captureStep_eq_clear {size : Nat} {g : Nat → Nat → Cell} {vis : Finset Pos} {p : Pos}
    (h : g p.1 p.2 ≠ Cell.empty ∧ g p.1 p.2 ≠ Cell.stone color ∧ p ∉ vis)
    (hl : count_liberties ⟨size, g⟩ (get_group ⟨size, g⟩ p.1 p.2 (g p.1 p.2)) = 0) :
    captureStep size color (g, vis) p =
      (fun i j => if (i, j) ∈ get_group ⟨size, g⟩ p.1 p.2 (g p.1 p.2) then Cell.empty else g i j,
       insert p vis) := by
  simp only [captureStep]
  rw [if_pos h, if_pos hl]

lemma captureStep_eq_keep {size : Nat} {g : Nat → Nat → Cell} {vis : Finset Pos} {p : Pos}
    (h : g p.1 p.2 ≠ Cell.empty ∧ g p.1 p.2 ≠ Cell.stone color ∧ p ∉ vis)
    (hl : ¬ count_liberties ⟨size, g⟩ (get_group ⟨size, g⟩ p.1 p.2 (g p.1 p.2)) = 0) :
    captureStep size color (g, vis) p = (g, insert p vis) := by
  simp only [captureStep]
  rw [if_pos h, if_neg hl]

lemma capInv_init : capInv b color b.grid ∅ [] := by
  refine ⟨fun i j => Or.inl rfl, ?_, fun v hv => absurd hv (Finset.not_mem_empty v)⟩
  intro q hq1 hq2 hd
  constructor
  · intro he
    rw [hd.1] at he
    exact absurd he stone_other_ne_empty
  · rintro ⟨r, _, hr⟩
    cases hr

/-- Preservation of the capture-scan invariant by one scan step. -/
lemma capInv_step (g : Nat → Nat → Cell) (vis : Finset Pos) (P : List Pos) (p : Pos)
    (hp1 : p.1 < b.size) (hp2 : p.2 < b.size)
    (h : capInv b color g vis P) :
    capInv b color (captureStep b.size color (g, vis) p).1
      (captureStep b.size color (g, vis) p).2 (P ++ [p]) := by
  obtain ⟨h1, h2, h3⟩ := h
  by_cases hguard : g p.1 p.2 ≠ Cell.empty ∧ g p.1 p.2 ≠ Cell.stone color ∧ p ∉ vis
  · -- the scan processes p
    obtain ⟨hne, hnc, hnv⟩ := hguard
    have hcell : g p.1 p.2 = Cell.stone color.other := cell_eq_opp_of_ne hne hnc
    have hgb : b.grid p.1 p.2 = Cell.stone color.other := by
      rcases h1 p.1 p.2 with heq | ⟨_, _, _, hre⟩
      · rw [← heq]; exact hcell
      · exact absurd hre hne
    set C := get_group b p.1 p.2 (Cell.stone color.other) with hCdef
    have hSub1 : ∀ r ∈ C, g r.1 r.2 = Cell.stone color.other := by
      intro r hr
      have hrb := get_group_mem_color hp1 hp2 hgb hr
      have hrbounds := get_group_mem_inBounds hp1 hp2 hr
      rcases h1 r.1 r.2 with heq | ⟨hrb1, hrb2, hdr, hre⟩
      · rw [heq]; exact hrb
      · exfalso
        have hgrp_eq := get_group_eq_of_mem hp1 hp2 hgb hr
        have hdp : dead b color p := by
          refine ⟨hgb, ?_⟩
          have hx := hdr.2
          rw [hgrp_eq] at hx
          exact hx
        have hex := (h2 ⟨r.1, r.2⟩ hrb1 hrb2 hdr).1 hre
        rw [hgrp_eq] at hex
        have hple := (h2 p hp1 hp2 hdp).2 hex
        rw [hcell] at hple
        exact absurd hple stone_other_ne_empty
    have hH1 : ∀ i j, g i j = Cell.stone color.other → b.grid i j = Cell.stone color.other := by
      intro i j hg
      rcases h1 i j with heq | ⟨_, _, _, hre⟩
      · rw [← heq]; exact hg
      · rw [hg] at hre
        exact absurd hre stone_other_ne_empty
    have hSub2 : get_group ⟨b.size, g⟩ p.1 p.2 (Cell.stone color.other) = C :=
      get_group_stable hp1 hp2 hH1 hSub1
    have hSub3 : count_liberties ⟨b.size, g⟩ C = count_liberties b C := by
      unfold count_liberties
      refine congrArg Finset.card (libertiesOf_congr ?_)
      intro m hm r hr
      have hmb := get_group_mem_inBounds hp1 hp2 hm
      have hmcol := get_group_mem_color hp1 hp2 hgb hm
      constructor
      · intro hgr
        by_contra hbr
        rcases h1 r.1 r.2 with heq | ⟨hrb1, hrb2, hdr, hre⟩
        · exact hbr (by rw [← heq]; exact hgr)
        · have hropp : b.grid r.1 r.2 = Cell.stone color.other := hdr.1
          have hrbounds : r.1 < b.size ∧ r.2 < b.size := stepCands_inBounds hmb.1 hmb.2 hr
          have hmstep : GStep b (Cell.stone color.other) r m :=
            ⟨stepCands_symm hmb.1 hmb.2 hr, hmcol⟩
          have hmmem : m ∈ get_group b r.1 r.2 (Cell.stone color.other) :=
            (mem_get_group_iff hrbounds.1 hrbounds.2 _).2 (Relation.ReflTransGen.single hmstep)
          have hgr_eq : get_group b r.1 r.2 (Cell.stone color.other) = C := by
            have e1 := get_group_eq_of_mem hrbounds.1 hrbounds.2 hropp hmmem
            have e2 := get_group_eq_of_mem hp1 hp2 hgb hm
            rw [← e1]
            exact e2
          have hdp : dead b color p := by
            refine ⟨hgb, ?_⟩
            have hx := hdr.2
            rw [hgr_eq] at hx
            exact hx
          have hex := (h2 ⟨r.1, r.2⟩ hrb1 hrb2 hdr).1 hre
          rw [hgr_eq] at hex
          have hple := (h2 p hp1 hp2 hdp).2 hex
          rw [hcell] at hple
          exact absurd hple stone_other_ne_empty
      · intro hbr
        rcases h1 r.1 r.2 with heq | ⟨_, _, _, hre⟩
        · rw [heq]; exact hbr
        · exact hre
    have hgrp : get_group ⟨b.size, g⟩ p.1 p.2 (g p.1 p.2) = C := by
      rw [hcell]; exact hSub2
    by_cases hlib : count_liberties b C = 0
    · -- the group of p is cleared
      have hdp : dead b color p := ⟨hgb, hlib⟩
      have hlib' : count_liberties ⟨b.size, g⟩
          (get_group ⟨b.size, g⟩ p.1 p.2 (g p.1 p.2)) = 0 := by
        rw [hgrp, hSub3]; exact hlib
      rw [captureStep_eq_clear ⟨hne, hnc, hnv⟩ hlib']
      rw [hgrp]
      dsimp only
      refine ⟨?_, ?_, ?_⟩ <;> beta_reduce
      · -- (1): changes only dead-to-empty
        intro i j
        by_cases hij : (i, j) ∈ C
        · have hbounds := get_group_mem_inBounds hp1 hp2 hij
          exact Or.inr ⟨hbounds.1, hbounds.2, dead_of_mem_group hp1 hp2 hdp hij,
            by simp [hij]⟩
        · rw [if_neg hij]
          exact h1 i j
      · -- (2): dead cell empty iff a member was scanned
        intro q hq1 hq2 hd
        by_cases hqC : q ∈ C
        · have hgq : get_group b q.1 q.2 (Cell.stone color.other) = C :=
            get_group_eq_of_mem hp1 hp2 hgb hqC
          constructor
          · intro _
            refine ⟨p, ?_, List.mem_append.2 (Or.inr (List.mem_singleton.2 rfl))⟩
            rw [hgq, hCdef]
            exact get_group_self_mem_pos hp1 hp2
          · intro _
            simp [hqC]
        · have hdisj : ∀ r ∈ get_group b q.1 q.2 (Cell.stone color.other), r ∉ C := by
            intro r hrg hrC
            have heq2 := get_group_eq_of_inter hp1 hp2 hq1 hq2 hgb hd.1 hrC hrg
            refine hqC ?_
            rw [hCdef, ← heq2]
            exact get_group_self_mem_pos hq1 hq2
          have hbeta : (if (q.1, q.2) ∈ C then Cell.empty else g q.1 q.2) = g q.1 q.2 := by
            simp [hqC]
          rw [hbeta, h2 q hq1 hq2 hd]
          constructor
          · rintro ⟨r, hr, hrP⟩
            exact ⟨r, hr, List.mem_append.2 (Or.inl hrP)⟩
          · rintro ⟨r, hr, hrP⟩
            rcases List.mem_append.1 hrP with hrP | hrP
            · exact ⟨r, hr, hrP⟩
            · exfalso
              have hrp : r = p := List.mem_singleton.1 hrP
              subst hrp
              exact hdisj r hr (get_group_self_mem_pos hp1 hp2)
      · -- (3): visited set inside the scanned list
        intro v hv
        rcases Finset.mem_insert.1 hv with rfl | hv
        · exact List.mem_append.2 (Or.inr (List.mem_singleton.2 rfl))
        · exact List.mem_append.2 (Or.inl (h3 v hv))
    · -- the group of p survives
      have hndp : ¬ dead b color p := fun hd => hlib hd.2
      have hlib' : ¬ count_liberties ⟨b.size, g⟩
          (get_group ⟨b.size, g⟩ p.1 p.2 (g p.1 p.2)) = 0 := by
        rw [hgrp, hSub3]; exact hlib
      rw [captureStep_eq_keep ⟨hne, hnc, hnv⟩ hlib']
      dsimp only
      refine ⟨h1, ?_, ?_⟩
      · intro q hq1 hq2 hd
        rw [h2 q hq1 hq2 hd]
        constructor
        · rintro ⟨r, hr, hrP⟩
          exact ⟨r, hr, List.mem_append.2 (Or.inl hrP)⟩
        · rintro ⟨r, hr, hrP⟩
          rcases List.mem_append.1 hrP with hrP | hrP
          · exact ⟨r, hr, hrP⟩
          · exfalso
            have hrp : r = p := List.mem_singleton.1 hrP
            subst hrp
            exact hndp (dead_of_mem_group hq1 hq2 hd hr)
      · intro v hv
        rcases Finset.mem_insert.1 hv with rfl | hv
        · exact List.mem_append.2 (Or.inr (List.mem_singleton.2 rfl))
        · exact List.mem_append.2 (Or.inl (h3 v hv))
  · -- the scan skips p
    rw [captureStep_eq_skip hguard]
    dsimp only
    refine ⟨h1, ?_, fun v hv => List.mem_append.2 (Or.inl (h3 v hv))⟩
    intro q hq1 hq2 hd
    rw [h2 q hq1 hq2 hd]
    constructor
    · rintro ⟨r, hr, hrP⟩
      exact ⟨r, hr, List.mem_append.2 (Or.inl hrP)⟩
    · rintro ⟨r, hr, hrP⟩
      rcases List.mem_append.1 hrP with hrP | hrP
      · exact ⟨r, hr, hrP⟩
      · have hrp : r = p := List.mem_singleton.1 hrP
        subst hrp
        have hgbr := get_group_mem_color hq1 hq2 hd.1 hr
        have hbounds_r := get_group_mem_inBounds hq1 hq2 hr
        have hdr : dead b color r := dead_of_mem_group hq1 hq2 hd hr
        have hgrp_eq := get_group_eq_of_mem hq1 hq2 hd.1 hr
        push_neg at hguard
        by_cases hge : g r.1 r.2 = Cell.empty
        · have h2r := (h2 ⟨r.1, r.2⟩ hbounds_r.1 hbounds_r.2 hdr).1 hge
          rw [hgrp_eq] at h2r
          exact h2r
        · by_cases hgs : g r.1 r.2 = Cell.stone color
          · exfalso
            rcases h1 r.1 r.2 with heq | ⟨_, _, _, hre⟩
            · have : Cell.stone color.other = Cell.stone color := by
                rw [← hgbr, ← heq, hgs]
              exact absurd this stone_other_ne_self
            · exact absurd hre hge
          · have hpv : r ∈ vis := hguard hge hgs
            exact ⟨r, hr, h3 r hpv⟩

end CaptureLemmas

section CaptureSpec

variable {b : Board} {color : Color}

lemma mem_rowMajor {size : Nat} {p : Pos} :
    p ∈ rowMajor size ↔ p.1 < size ∧ p.2 < size := by
  obtain ⟨i, j⟩ := p
  simp [rowMajor]

lemma capInv_fold (b : Board) (color : Color) :
    ∀ (l : List Pos) (st : (Nat → Nat → Cell) × Finset Pos) (P : List Pos),
      (∀ p ∈ l, p.1 < b.size ∧ p.2 < b.size) →
      capInv b color st.1 st.2 P →
      capInv b color (l.foldl (captureStep b.size color) st).1
        (l.foldl (captureStep b.size color) st).2 (P ++ l) := by
  intro l
  induction l with
  | nil =>
      intro st P _ h
      simpa using h
  | cons p l' ih =>
      intro st P hb h
      have hp := hb p (List.mem_cons_self _ _)
      have hstep := capInv_step st.1 st.2 P p hp.1 hp.2 h
      have hrec := ih (captureStep b.size color st p) (P ++ [p])
        (fun q hq => hb q (List.mem_cons ..|>.2 (Or.inr hq))) hstep
      simpa [List.append_assoc] using hrec

/-- The characterization of `Board.capture`: running the sweep empties
exactly the in-bounds cells whose (pre-sweep) group is an opposing-colour
group with zero liberties, and changes nothing else. -/
lemma capture_spec (b : Board) (color : Color) (i j : Nat) :
    (capture b color).grid i j =
      if i < b.size ∧ j < b.size ∧ dead b color (i, j) then Cell.empty
      else b.grid i j := by
  have hfold := capInv_fold b color (rowMajor b.size) (b.grid, ∅) []
    (fun p hp => mem_rowMajor.1 hp) capInv_init
  rw [List.nil_append] at hfold
  obtain ⟨h1, h2, _⟩ := hfold
  have hgrid : (capture b color).grid =
      ((rowMajor b.size).foldl (captureStep b.size color) (b.grid, ∅)).1 := rfl
  rw [hgrid]
  split
  · rename_i hcond
    obtain ⟨hi, hj, hd⟩ := hcond
    refine (h2 (i, j) hi hj hd).2 ⟨(i, j), ?_, mem_rowMajor.2 ⟨hi, hj⟩⟩
    exact get_group_self_mem_pos hi hj
  · rename_i hcond
    rcases h1 i j with heq | ⟨hi, hj, hd, _⟩
    · exact heq
    · exact absurd ⟨hi, hj, hd⟩ hcond

end CaptureSpec

section MoveLemmas

lemma Board.ext_grid {b1 b2 : Board} (hs : b1.size = b2.size)
    (hg : ∀ i j, b1.grid i j = b2.grid i j) : b1 = b2 := by
  cases b1 with
  | mk s1 g1 =>
      cases b2 with
      | mk s2 g2 =>
          dsimp at hs hg
          subst hs
          have hfun : g1 = g2 := funext (fun i => funext (fun j => hg i j))
          rw [hfun]

variable {b : Board} {x y : Int} {c : Color}

lemma perform_move_skip : perform_move b .skip c = (Except.ok (), b) := rfl

lemma perform_move_oob
    (h : x < 0 ∨ x ≥ (b.size : Int) ∨ y < 0 ∨ y ≥ (b.size : Int)) :
    perform_move b (.place x y) c = (Except.error (.cellDoesNotExist x y), b) := by
  simp only [perform_move]
  rw [if_pos h]

lemma perform_move_occupied
    (h : ¬(x < 0 ∨ x ≥ (b.size : Int) ∨ y < 0 ∨ y ≥ (b.size : Int)))
    (h2 : b.grid x.toNat y.toNat ≠ Cell.empty) :
    perform_move b (.place x y) c = (Except.error (.cellNotEmpty x y), b) := by
  simp only [perform_move]
  rw [if_neg h, if_pos h2]

lemma perform_move_suicide
    (h : ¬(x < 0 ∨ x ≥ (b.size : Int) ∨ y < 0 ∨ y ≥ (b.size : Int)))
    (h2 : ¬ b.grid x.toNat y.toNat ≠ Cell.empty)
    (h3 : check_inmediate_capture ⟨b.size, setCell b.grid x.toNat y.toNat (Cell.stone c)⟩
      x.toNat y.toNat c = true) :
    perform_move b (.place x y) c =
      (Except.error (.inmediateCapture x y), ⟨b.size, b.grid⟩) := by
  simp only [perform_move]
  rw [if_neg h, if_neg h2, if_pos h3]

lemma perform_move_repetition
    (h : ¬(x < 0 ∨ x ≥ (b.size : Int) ∨ y < 0 ∨ y ≥ (b.size : Int)))
    (h2 : ¬ b.grid x.toNat y.toNat ≠ Cell.empty)
    (h3 : ¬ check_inmediate_capture ⟨b.size, setCell b.grid x.toNat y.toNat (Cell.stone c)⟩
      x.toNat y.toNat c = true)
    (h4 : gridEq b.size
      (capture ⟨b.size, setCell b.grid x.toNat y.toNat (Cell.stone c)⟩ c).grid b.grid) :
    perform_move b (.place x y) c =
      (Except.error (.prohibitionOfRepetition x y), ⟨b.size, b.grid⟩) := by
  simp only [perform_move]
  rw [if_neg h, if_neg h2, if_neg h3, if_pos h4]

lemma perform_move_commit
    (h : ¬(x < 0 ∨ x ≥ (b.size : Int) ∨ y < 0 ∨ y ≥ (b.size : Int)))
    (h2 : ¬ b.grid x.toNat y.toNat ≠ Cell.empty)
    (h3 : ¬ check_inmediate_capture ⟨b.size, setCell b.grid x.toNat y.toNat (Cell.stone c)⟩
      x.toNat y.toNat c = true)
    (h4 : ¬ gridEq b.size
      (capture ⟨b.size, setCell b.grid x.toNat y.toNat (Cell.stone c)⟩ c).grid b.grid) :
    perform_move b (.place x y) c =
      (Except.ok (), capture ⟨b.size, setCell b.grid x.toNat y.toNat (Cell.stone c)⟩ c) := by
  simp only [perform_move]
  rw [if_neg h, if_neg h2, if_neg h3, if_neg h4]

end MoveLemmas

section IdempotenceSupport

variable {b : Board} {color : Color}

/-- After one capture sweep no opposing group with zero liberties remains. -/
lemma not_dead_capture (b : Board) (color : Color) :
    ∀ q : Pos, q.1 < b.size → q.2 < b.size → ¬ dead (capture b color) color q := by
  intro q hq1 hq2 hdq
  have hspec := capture_spec b color q.1 q.2
  have hbval : (capture b color).grid q.1 q.2 = Cell.stone color.other := hdq.1
  rw [hspec] at hbval
  by_cases hcond : q.1 < b.size ∧ q.2 < b.size ∧ dead b color (q.1, q.2)
  · rw [if_pos hcond] at hbval
    exact absurd hbval.symm stone_other_ne_empty
  · rw [if_neg hcond] at hbval
    have hnd : ¬ dead b color q := fun hd => hcond ⟨hq1, hq2, hd⟩
    have hlibb : count_liberties b (get_group b q.1 q.2 (Cell.stone color.other)) ≠ 0 :=
      fun h0 => hnd ⟨hbval, h0⟩
    -- the group of q is unchanged by the sweep
    have hmem_keep : ∀ r ∈ get_group b q.1 q.2 (Cell.stone color.other),
        (capture b color).grid r.1 r.2 = Cell.stone color.other := by
      intro r hr
      have hrb := get_group_mem_color hq1 hq2 hbval hr
      have hrbounds := get_group_mem_inBounds hq1 hq2 hr
      have hrnd : ¬ dead b color r := not_dead_of_mem_group hq1 hq2 hbval hnd hr
      rw [capture_spec]
      rw [if_neg (fun hcon => hrnd hcon.2.2)]
      exact hrb
    have hH1 : ∀ i j, (capture b color).grid i j = Cell.stone color.other →
        b.grid i j = Cell.stone color.other := by
      intro i j hg
      rw [capture_spec] at hg
      by_cases hcon : i < b.size ∧ j < b.size ∧ dead b color (i, j)
      · rw [if_pos hcon] at hg
        exact absurd hg.symm stone_other_ne_empty
      · rw [if_neg hcon] at hg
        exact hg
    have hstable : get_group ⟨b.size, (capture b color).grid⟩ q.1 q.2
        (Cell.stone color.other) = get_group b q.1 q.2 (Cell.stone color.other) :=
      get_group_stable hq1 hq2 hH1 hmem_keep
    -- liberties only grow under the sweep
    have hmono : libertiesOf b (get_group b q.1 q.2 (Cell.stone color.other)) ⊆
        libertiesOf ⟨b.size, (capture b color).grid⟩
          (get_group b q.1 q.2 (Cell.stone color.other)) := by
      refine libertiesOf_mono_empty ?_
      intro i j he
      rw [capture_spec]
      by_cases hcon : i < b.size ∧ j < b.size ∧ dead b color (i, j)
      · rw [if_pos hcon]
      · rw [if_neg hcon]; exact he
    have hpos : libertiesOf b (get_group b q.1 q.2 (Cell.stone color.other)) ≠ ∅ := by
      intro hempty
      exact hlibb (by unfold count_liberties; rw [hempty]; exact Finset.card_empty)
    obtain ⟨r, hrmem⟩ := Finset.nonempty_iff_ne_empty.2 hpos
    have hzero := hdq.2
    have hb'eq : get_group (capture b color) q.1 q.2 (Cell.stone color.other) =
        get_group b q.1 q.2 (Cell.stone color.other) := hstable
    rw [hb'eq] at hzero
    have hrmem' : r ∈ libertiesOf (capture b color)
        (get_group b q.1 q.2 (Cell.stone color.other)) := hmono hrmem
    have : count_liberties (capture b color)
        (get_group b q.1 q.2 (Cell.stone color.other)) ≠ 0 := by
      unfold count_liberties
      intro hcard
      rw [Finset.card_eq_zero] at hcard
      rw [hcard] at hrmem'
      exact absurd hrmem' (Finset.not_mem_empty r)
    exact this hzero

end IdempotenceSupport

section ClaimSupport

variable {b : Board} {c : Cell}

lemma specReach_inBounds {x y : Nat} {p : Pos} (hx : x < b.size) (hy : y < b.size)
    (h : Relation.ReflTransGen (SpecStep b c) (x, y) p) :
    p.1 < b.size ∧ p.2 < b.size := by
  induction h with
  | refl => exact ⟨hx, hy⟩
  | tail _ hstep _ => exact ⟨hstep.2.1, hstep.2.2.1⟩

lemma stone_self_ne_other {color : Color} : Cell.stone color ≠ Cell.stone color.other := by
  cases color <;> simp [Color.other]

/-- The capture sweep never clears a stone of the mover's own colour. -/
lemma capture_keeps_mover_stones (b : Board) (c : Color) (q : Pos)
    (h : b.grid q.1 q.2 = Cell.stone c) :
    (capture b c).grid q.1 q.2 = Cell.stone c := by
  rw [capture_spec]
  rw [if_neg]
  · exact h
  · intro hcon
    exact stone_self_ne_other (h.symm.trans hcon.2.2.1)

end ClaimSupport

/-- C1. Rollback exactness: whenever `perform_move` rejects a move (with
any of the four errors), the final board state is exactly the board from
before the call — the rejection paths return the untouched board or the
snapshot taken before the tentative placement. -/
theorem perform_move_rollback_exact (b : Board) (p : Play) (c : Color) (e : InvalidMove)
    (h : (perform_move b p c).1 = Except.error e) :
    (perform_move b p c).2 = b := by
  cases p with
  | skip =>
      rw [perform_move_skip] at h
      simp at h
  | place x y =>
      by_cases h1 : x < 0 ∨ x ≥ (b.size : Int) ∨ y < 0 ∨ y ≥ (b.size : Int)
      · rw [perform_move_oob h1]
      · by_cases h2 : b.grid x.toNat y.toNat ≠ Cell.empty
        · rw [perform_move_occupied h1 h2]
        · by_cases h3 : check_inmediate_capture
              ⟨b.size, setCell b.grid x.toNat y.toNat (Cell.stone c)⟩ x.toNat y.toNat c = true
          · rw [perform_move_suicide h1 h2 h3]
          · by_cases h4 : gridEq b.size
                (capture ⟨b.size, setCell b.grid x.toNat y.toNat (Cell.stone c)⟩ c).grid b.grid
            · rw [perform_move_repetition h1 h2 h3 h4]
            · rw [perform_move_commit h1 h2 h3 h4] at h
              simp at h

/-- Witness for C1 at a concrete rejected move: black plays the occupied
cell (0,1) of `bCorner`; the move is rejected with `CellNotEmpty` and the
final board is the original board. -/
theorem perform_move_rollback_exact_witness :
    (perform_move bCorner (.place 0 1) .black).1 =
        Except.error (InvalidMove.cellNotEmpty 0 1) ∧
      (perform_move bCorner (.place 0 1) .black).2 = bCorner :=
  ⟨by decide, perform_move_rollback_exact bCorner (.place 0 1) .black
    (InvalidMove.cellNotEmpty 0 1) (by decide)⟩

/-- C2. Suicide-check ordering: once the bounds and occupancy checks pass,
if the liberties of the mover's own group — computed on the board with the
stone tentatively placed but before any capture sweep — are zero, the move
is rejected with `InmediateCapture` and the snapshot restored. In
particular (second conjunct) black's play at (0,0) on `bCorner` is
rejected even though running the sweep on the tentative board would
capture both white stones and leave the placed stone with liberties. -/
theorem suicide_checked_before_capture :
    (∀ (b : Board) (x y : Int) (c : Color),
      ¬(x < 0 ∨ x ≥ (b.size : Int) ∨ y < 0 ∨ y ≥ (b.size : Int)) →
      b.grid x.toNat y.toNat = Cell.empty →
      check_inmediate_capture ⟨b.size, setCell b.grid x.toNat y.toNat (Cell.stone c)⟩
        x.toNat y.toNat c = true →
      perform_move b (.place x y) c = (Except.error (.inmediateCapture x y), b)) ∧
    (perform_move bCorner (.place 0 0) .black =
        (Except.error (.inmediateCapture 0 0), bCorner) ∧
      count_liberties (capture bCornerPlaced .black)
        (get_group (capture bCornerPlaced .black) 0 0 (Cell.stone .black)) ≠ 0) := by
  constructor
  · intro b x y c h1 h2 h3
    rw [perform_move_suicide h1 (fun hne => hne h2) h3]
  · constructor
    · rw [perform_move_suicide (by decide) (by decide) (by decide)]
    · decide

/-- Witness for C2: the concrete suicidal corner play on `bCorner` is
rejected with `InmediateCapture` and the board is left unchanged. -/
theorem suicide_checked_before_capture_witness :
    perform_move bCorner (.place 0 0) .black =
      (Except.error (.inmediateCapture 0 0), bCorner) :=
  suicide_checked_before_capture.1 bCorner 0 0 .black (by decide) (by decide) (by decide)

/-- C3. The repetition rejection is unreachable: the capture sweep never
clears a mover-colour stone (first conjunct), so once a placement on an
Empty cell passes the earlier checks the post-sweep grid still holds the
mover's stone where the snapshot held Empty (second conjunct), and
consequently `perform_move` never raises `ProhibitionOfRepetition` for
any move (third conjunct). -/
theorem repetition_unreachable :
    (∀ (b : Board) (c : Color) (q : Pos), b.grid q.1 q.2 = Cell.stone c →
        (capture b c).grid q.1 q.2 = Cell.stone c) ∧
    (∀ (b : Board) (x y : Int) (c : Color),
      ¬(x < 0 ∨ x ≥ (b.size : Int) ∨ y < 0 ∨ y ≥ (b.size : Int)) →
      b.grid x.toNat y.toNat = Cell.empty →
      (capture ⟨b.size, setCell b.grid x.toNat y.toNat (Cell.stone c)⟩ c).grid
          x.toNat y.toNat ≠ b.grid x.toNat y.toNat) ∧
    (∀ (b : Board) (p : Play) (c : Color) (u v : Int),
      (perform_move b p c).1 ≠ Except.error (.prohibitionOfRepetition u v)) := by
  refine ⟨capture_keeps_mover_stones, ?_, ?_⟩
  · intro b x y c h1 h2
    have hplaced : (setCell b.grid x.toNat y.toNat (Cell.stone c)) x.toNat y.toNat =
        Cell.stone c := by
      simp [setCell]
    have hkept := capture_keeps_mover_stones
      ⟨b.size, setCell b.grid x.toNat y.toNat (Cell.stone c)⟩ c (x.toNat, y.toNat) hplaced
    rw [hkept, h2]
    simp
  · intro b p c u v
    cases p with
    | skip =>
        rw [perform_move_skip]
        simp
    | place x y =>
        by_cases h1 : x < 0 ∨ x ≥ (b.size : Int) ∨ y < 0 ∨ y ≥ (b.size : Int)
        · rw [perform_move_oob h1]; simp
        · by_cases h2 : b.grid x.toNat y.toNat ≠ Cell.empty
          · rw [perform_move_occupied h1 h2]; simp
          · by_cases h3 : check_inmediate_capture
                ⟨b.size, setCell b.grid x.toNat y.toNat (Cell.stone c)⟩ x.toNat y.toNat c = true
            · rw [perform_move_suicide h1 h2 h3]; simp
            · by_cases h4 : gridEq b.size
                  (capture ⟨b.size, setCell b.grid x.toNat y.toNat (Cell.stone c)⟩ c).grid b.grid
              · exfalso
                push_neg at h1 h2
                have hxb : x.toNat < b.size := by omega
                have hyb : y.toNat < b.size := by omega
                have hplaced : (setCell b.grid x.toNat y.toNat (Cell.stone c)) x.toNat y.toNat =
                    Cell.stone c := by
                  simp [setCell]
                have hkept := capture_keeps_mover_stones
                  ⟨b.size, setCell b.grid x.toNat y.toNat (Cell.stone c)⟩ c
                  (x.toNat, y.toNat) hplaced
                have heq := h4 x.toNat hxb y.toNat hyb
                rw [hkept, h2] at heq
                exact Cell.noConfusion heq
              · rw [perform_move_commit h1 h2 h3 h4]; simp

/-- Witness for C3: on `bCross` the black stone at (0,1) survives the
sweep, and a concrete occupied-cell move never reports repetition. -/
theorem repetition_unreachable_witness :
    (capture bCross .black).grid 0 1 = Cell.stone .black ∧
    (perform_move bCorner (.place 0 1) .black).1 ≠
      Except.error (.prohibitionOfRepetition 0 1) :=
  ⟨repetition_unreachable.1 bCross .black (0, 1) (by decide),
   repetition_unreachable.2.2 bCorner (.place 0 1) .black 0 1⟩

/-- C4. Capture correctness: the sweep empties every coordinate of every
opposing-colour group whose liberty count is zero (first conjunct), and
changes no other cell — any changed cell held a zero-liberty opposing
stone and is now empty (second conjunct). -/
theorem capture_clears_exactly_dead_groups (b : Board) (color : Color) :
    (∀ p : Pos, p.1 < b.size → p.2 < b.size →
      b.grid p.1 p.2 = Cell.stone color.other →
      count_liberties b (get_group b p.1 p.2 (Cell.stone color.other)) = 0 →
      ∀ q ∈ get_group b p.1 p.2 (Cell.stone color.other),
        (capture b color).grid q.1 q.2 = Cell.empty) ∧
    (∀ i j, (capture b color).grid i j ≠ b.grid i j →
      (b.grid i j = Cell.stone color.other ∧
       count_liberties b (get_group b i j (Cell.stone color.other)) = 0 ∧
       (capture b color).grid i j = Cell.empty)) := by
  constructor
  · intro p hp1 hp2 hopp hlib q hq
    have hdp : dead b color p := ⟨hopp, hlib⟩
    have hdq : dead b color q := dead_of_mem_group hp1 hp2 hdp hq
    have hqb := get_group_mem_inBounds hp1 hp2 hq
    rw [capture_spec]
    rw [if_pos ⟨hqb.1, hqb.2, hdq⟩]
  · intro i j hne
    rw [capture_spec] at hne
    by_cases hcon : i < b.size ∧ j < b.size ∧ dead b color (i, j)
    · exact ⟨hcon.2.2.1, hcon.2.2.2, by rw [capture_spec, if_pos hcon]⟩
    · rw [if_neg hcon] at hne
      exact absurd rfl hne

/-- Witness for C4: on `bCross`, the lone white stone at (1,1), surrounded
on all four sides by black, is removed by the sweep, and a surrounding
black stone is untouched. -/
theorem capture_clears_exactly_dead_groups_witness :
    (capture bCross .black).grid 1 1 = Cell.empty ∧
    (capture bCross .black).grid 0 1 = Cell.stone .black :=
  ⟨(capture_clears_exactly_dead_groups bCross .black).1 (1, 1) (by decide) (by decide)
      (by decide) (by decide) (1, 1) (by decide),
   by decide⟩

/-- C5. Idempotence of the capture sweep: running `Board.capture` twice in
succession with no placement in between produces exactly the board of the
single run — after one sweep no opposing group has zero liberties left. -/
theorem capture_idempotent (b : Board) (color : Color) :
    capture (capture b color) color = capture b color := by
  refine Board.ext_grid rfl ?_
  intro i j
  rw [capture_spec (capture b color) color i j]
  by_cases hcon : i < (capture b color).size ∧ j < (capture b color).size ∧
      dead (capture b color) color (i, j)
  · exact absurd hcon.2.2 (not_dead_capture b color (i, j) hcon.1 hcon.2.1)
  · rw [if_neg hcon]

/-- C6. Group computation: for an in-bounds start holding colour `c`,
`get_group` returns exactly the coordinates reachable from the start by
orthogonal steps through in-bounds cells of the same colour (including the
start), and consequently the same set is returned from any starting
member of that group. -/
theorem get_group_reachability (b : Board) (x y : Nat) (c : Cell)
    (hx : x < b.size) (hy : y < b.size) (hcol : b.grid x y = c) :
    (∀ q : Pos, q ∈ get_group b x y c ↔
        Relation.ReflTransGen (SpecStep b c) (x, y) q) ∧
    (∀ q ∈ get_group b x y c, get_group b q.1 q.2 c = get_group b x y c) := by
  constructor
  · intro q
    rw [mem_get_group_iff hx hy]
    constructor
    · intro h
      induction h with
      | refl => exact Relation.ReflTransGen.refl
      | @tail p q' hr hstep ih =>
          have hpb := reach_inBounds hx hy hr
          exact ih.tail ((GStep_iff_specStep hpb.1 hpb.2).1 hstep)
    · intro h
      induction h with
      | refl => exact Relation.ReflTransGen.refl
      | @tail p q' hr hstep ih =>
          have hpb := specReach_inBounds hx hy hr
          exact ih.tail ((GStep_iff_specStep hpb.1 hpb.2).2 hstep)
  · intro q hq
    exact get_group_eq_of_mem hx hy hcol hq

/-- Witness for C6: on `bGroups`, starting the flood fill at (1,1) — a
member of the group found from (0,0) — returns the same group. -/
theorem get_group_reachability_witness :
    get_group bGroups 1 1 (Cell.stone .black) = get_group bGroups 0 0 (Cell.stone .black) :=
  (get_group_reachability bGroups 0 0 (Cell.stone .black) (by decide) (by decide)
    (by decide)).2 (1, 1) (by decide)

/-- C7. Bounds and occupancy rejection: a `Place(x, y)` is rejected with
`CellDoesNotExist` exactly when `x` or `y` lies outside `[0, size)` —
regardless of the grid contents, the bounds check coming first — and, for
in-bounds coordinates, it is rejected with `CellNotEmpty` exactly when the
target cell is not Empty. -/
theorem bounds_and_occupancy_rejection (b : Board) (x y : Int) (c : Color) :
    ((perform_move b (.place x y) c).1 = Except.error (.cellDoesNotExist x y) ↔
      (x < 0 ∨ x ≥ (b.size : Int) ∨ y < 0 ∨ y ≥ (b.size : Int))) ∧
    ((0 ≤ x ∧ x < (b.size : Int) ∧ 0 ≤ y ∧ y < (b.size : Int)) →
      ((perform_move b (.place x y) c).1 = Except.error (.cellNotEmpty x y) ↔
        b.grid x.toNat y.toNat ≠ Cell.empty)) := by
  by_cases h1 : x < 0 ∨ x ≥ (b.size : Int) ∨ y < 0 ∨ y ≥ (b.size : Int)
  · rw [perform_move_oob h1]
    refine ⟨by simp [h1], ?_⟩
    rintro ⟨ha, hb', hc', hd'⟩
    rcases h1 with h | h | h | h <;> omega
  · by_cases h2 : b.grid x.toNat y.toNat ≠ Cell.empty
    · rw [perform_move_occupied h1 h2]
      constructor
      · simp [h1]
      · intro _
        simp [h2]
    · by_cases h3 : check_inmediate_capture
          ⟨b.size, setCell b.grid x.toNat y.toNat (Cell.stone c)⟩ x.toNat y.toNat c = true
      · rw [perform_move_suicide h1 h2 h3]
        constructor
        · simp [h1]
        · intro _
          simp [h2]
      · by_cases h4 : gridEq b.size
            (capture ⟨b.size, setCell b.grid x.toNat y.toNat (Cell.stone c)⟩ c).grid b.grid
        · rw [perform_move_repetition h1 h2 h3 h4]
          constructor
          · simp [h1]
          · intro _
            simp [h2]
        · rw [perform_move_commit h1 h2 h3 h4]
          constructor
          · simp [h1]
          · intro _
            simp [h2]

/-- Witness for C7: on the empty 2×2 board, `Place(-1,0)` and
`Place(2,0)` (i.e. `Place(size,0)`) are rejected with `CellDoesNotExist`,
and an occupied target on `bCorner` is rejected with `CellNotEmpty`. -/
theorem bounds_and_occupancy_rejection_witness :
    (perform_move bEmpty2 (.place (-1) 0) .black).1 =
        Except.error (.cellDoesNotExist (-1) 0) ∧
    (perform_move bEmpty2 (.place 2 0) .black).1 =
        Except.error (.cellDoesNotExist 2 0) ∧
    (perform_move bCorner (.place 0 1) .black).1 =
        Except.error (.cellNotEmpty 0 1) :=
  ⟨(bounds_and_occupancy_rejection bEmpty2 (-1) 0 .black).1.mpr (by decide),
   (bounds_and_occupancy_rejection bEmpty2 2 0 .black).1.mpr (by decide),
   ((bounds_and_occupancy_rejection bCorner 0 1 .black).2 (by decide)).mpr (by decide)⟩

/-- C8 counterexample: requesting a group or liberties computation for an
Empty origin cell does not fail fast. `get_group` and `count_liberties`
have no failure path at all: on the all-empty 2×2 board they return a
normal — and misleading — result: the group of the Empty origin (0,0)
queried for black is the non-empty set {(0,0)} although (0,0) holds no
black stone, and its liberty count is 2. -/
theorem empty_origin_query_returns_normally :
    bEmpty2.grid 0 0 = Cell.empty ∧
    get_group bEmpty2 0 0 (Cell.stone .black) = {(0, 0)} ∧
    count_liberties bEmpty2 {(0, 0)} = 2 := by
  decide

/-- C8 amended: a group query for an in-bounds Empty origin returns
normally, and the returned set always contains the origin itself even
though the origin does not hold the requested colour. -/
theorem empty_origin_group_contains_origin (b : Board) (x y : Nat) (c : Cell)
    (hx : x < b.size) (hy : y < b.size) :
    (x, y) ∈ get_group b x y c :=
  get_group_self_mem hx hy

/-- Witness for the amended C8 at the concrete empty board. -/
theorem empty_origin_group_contains_origin_witness :
    (0, 0) ∈ get_group bEmpty2 0 0 (Cell.stone .black) :=
  empty_origin_group_contains_origin bEmpty2 0 0 (Cell.stone .black) (by decide) (by decide)

/-- C9. Frame property of the capture sweep: every cell is either
unchanged, or held an opposing-colour stone and is now Empty; in
particular any cell that was Empty or held the mover's colour before the
sweep is unchanged by it. -/
theorem capture_frame (b : Board) (color : Color) (i j : Nat) :
    ((capture b color).grid i j = b.grid i j ∨
      (b.grid i j = Cell.stone color.other ∧ (capture b color).grid i j = Cell.empty)) ∧
    ((b.grid i j = Cell.empty ∨ b.grid i j = Cell.stone color) →
      (capture b color).grid i j = b.grid i j) := by
  constructor
  · rw [capture_spec]
    by_cases hcon : i < b.size ∧ j < b.size ∧ dead b color (i, j)
    · rw [if_pos hcon]
      exact Or.inr ⟨hcon.2.2.1, rfl⟩
    · rw [if_neg hcon]
      exact Or.inl rfl
  · intro hcell
    rw [capture_spec]
    rw [if_neg]
    intro hcon
    rcases hcell with he | hs
    · exact stone_other_ne_empty (hcon.2.2.1.symm.trans he)
    · exact stone_self_ne_other (hs.symm.trans hcon.2.2.1)

/-- Witness for C9: on `bCross`, the mover-colour stone at (0,1) is
unchanged by black's sweep. -/
theorem capture_frame_witness :
    bCross.grid 0 1 = Cell.stone .black ∧
    (capture bCross .black).grid 0 1 = bCross.grid 0 1 :=
  ⟨by decide, (capture_frame bCross .black 0 1).2 (Or.inr (by decide))⟩

/-- C10. The indexed setter never works: `Board.__setitem__` references
the undefined name `item` instead of its `key` parameter, so every call
raises `NameError: name 'item' is not defined` before any assignment, and
the grid is left unchanged. -/
theorem setitem_always_raises_name_error (b : Board) (key : Int × Int) (v : Cell) :
    setitem b key v = (Except.error ⟨"item"⟩, b) :=
  rfl
